import Mathlib

/-!
Verification development for the estuary repository.

The core subject is the Pin Manager (package `pinner`): a durable, fair,
concurrency-limited work scheduler.  The repository snapshot contains the
pinner package's test file (`part_001`) but not the implementation file
itself, so the manager is modelled from the specification as a shallow
state-machine embedding: event handlers (`Add`, `doneRun`) are pure
functions on an explicit state, and executions are traces of events folded
over the initial state.

The shuttle RPC layer (`cmd/estuary-shuttle/rpc.go`) and the node
configuration (`Config.AddListener`) are present in the source and are
embedded directly from it.
-/

/-- Modelled from the spec: `PinningOperation`, the unit of work handed to the
Pin Manager (spec section 3; the implementation file of package `pinner` is not
in the snapshot).  `contId` and `userId` form the dedup key, `obj` is the root
content identifier (modelled as `Nat`), `name` is the human label, and
`skipLimiter` bypasses the per-user cap.  The fields `Peers`, `Status`,
`Replace` and the timestamps are observability/executor hints never consulted
by the scheduling logic and are omitted. -/
structure PinningOperation where
  contId : Nat
  userId : Nat
  obj : Nat
  name : String
  skipLimiter : Bool
deriving DecidableEq

/-- The duplicate-guard key of an operation: the canonical `(UserId, ContId)`
pair (spec section 4.2). -/
def opKey (op : PinningOperation) : Nat × Nat :=
  (op.userId, op.contId)

/-- Modelled from the spec: construction options of `NewPinManager`
(spec section 4.6).  `QueueDataDir` and the logger have no effect on the
scheduling semantics and are omitted; the worker count fixed at `Run` time is
carried here as well so that every handler can consult it. -/
structure PinManagerOpts where
  maxActivePerUser : Nat
  workerCount : Nat

/-- Modelled from the spec: the state owned by a Pin Manager instance
(spec sections 4.1-4.4).
* `duplicateGuard` — the persistent set of claimed `(UserId, ContId)` keys;
* `pinQueue` — the durable FIFO queue (head first);
* `next` — the single operation popped off the durable queue head awaiting
  dispatch; `PinQueueSize` does not count it (spec section 8, scenario 2);
* `pendingPins` — operations deferred because their user is at the cap;
* `running` — operations currently executing `DoPin`;
* `doPinHist` — ghost history: every operation handed to `DoPin`, in order;
* `dispSince` — ghost map: for each currently claimed key, how many `DoPin`
  invocations happened since that key's current claim. -/
structure PinManager where
  duplicateGuard : List (Nat × Nat)
  pinQueue : List PinningOperation
  next : Option PinningOperation
  pendingPins : List PinningOperation
  running : List PinningOperation
  doPinHist : List PinningOperation
  dispSince : List ((Nat × Nat) × Nat)
deriving DecidableEq

/-- Modelled from the spec: a freshly constructed manager over an empty
`QueueDataDir` (spec section 4.6). -/
def NewPinManager : PinManager :=
  ⟨[], [], none, [], [], [], []⟩

/-- `PinQueueSize`: the length of the durable queue; it counts neither the
popped head in `next` nor running nor pending-map items (spec section 4.6). -/
def PinQueueSize (s : PinManager) : Nat :=
  s.pinQueue.length

/-- Operations tracked by the manager that have not yet been dispatched:
the popped head, the pending map, and the durable queue. -/
def undispatchedOps (s : PinManager) : List PinningOperation :=
  s.next.toList ++ s.pendingPins ++ s.pinQueue

/-- All operations tracked by the manager (undispatched plus running). -/
def trackedOps (s : PinManager) : List PinningOperation :=
  undispatchedOps s ++ s.running

/-- Number of operations currently tracked by the manager. -/
def sysCount (s : PinManager) : Nat :=
  (trackedOps s).length

/-- Ghost-map lookup for `dispSince`. -/
def lookupKey : List ((Nat × Nat) × Nat) → (Nat × Nat) → Option Nat
  | [], _ => none
  | (k, n) :: rest, k' => if k = k' then some n else lookupKey rest k'

/-- Ghost-map increment for `dispSince`: bump the counter of key `k'`. -/
def bumpKey : List ((Nat × Nat) × Nat) → (Nat × Nat) → List ((Nat × Nat) × Nat)
  | [], _ => []
  | (k, n) :: rest, k' => if k = k' then (k, n + 1) :: rest else (k, n) :: bumpKey rest k'

/-- Ghost-map removal for `dispSince`: drop the first entry for key `k'`. -/
def eraseKey : List ((Nat × Nat) × Nat) → (Nat × Nat) → List ((Nat × Nat) × Nat)
  | [], _ => []
  | (k, n) :: rest, k' => if k = k' then rest else (k, n) :: eraseKey rest k'

/-- Number of running operations belonging to user `u`
(the dispatcher's `running[userId]` table, spec section 4.4). -/
def userRunningCount (running : List PinningOperation) (u : Nat) : Nat :=
  (running.filter (fun q => q.userId == u)).length

/-- A free worker slot exists (spec section 4.4). -/
def freeSlot (opts : PinManagerOpts) (running : List PinningOperation) : Bool :=
  decide (running.length < opts.workerCount)

/-- An operation is runnable when its user is under the cap or it carries the
skip-limiter flag (spec section 4.4). -/
def runnable (opts : PinManagerOpts) (running : List PinningOperation)
    (op : PinningOperation) : Bool :=
  op.skipLimiter || decide (userRunningCount running op.userId < opts.maxActivePerUser)

/-- Hand an operation to a worker: it starts running, `DoPin` is invoked
(recorded in the ghost history), and the ghost per-claim dispatch counter of
its key is bumped (spec section 4.5). -/
def startOp (s : PinManager) (op : PinningOperation) : PinManager :=
  { s with running := s.running ++ [op],
           doPinHist := s.doPinHist ++ [op],
           dispSince := bumpKey s.dispSince (opKey op) }

/-- Modelled from the spec: the dispatcher's pass over the pending map
(spec section 4.4, `done` step 4): each pending operation is started when a
slot is free and it is runnable, otherwise it stays in the pending map, FIFO
order preserved.  The caller empties `pendingPins` before the pass and the
pass re-collects the kept operations. -/
def dispatchPending (opts : PinManagerOpts) : List PinningOperation → PinManager → PinManager
  | [], s => s
  | op :: rest, s =>
    if freeSlot opts s.running && runnable opts s.running op then
      dispatchPending opts rest (startOp s op)
    else
      dispatchPending opts rest { s with pendingPins := s.pendingPins ++ [op] }

/-- Modelled from the spec: the dispatcher's attempt loop over the durable
queue head (spec section 4.4): while a slot is free, a runnable head is
started and a non-runnable head is moved to the pending map; when no slot is
free the current head stays popped in the `next` slot, where `PinQueueSize`
does not count it.  The argument list is the stream `next.toList ++ pinQueue`
and the final state's `next`/`pinQueue` are rebuilt from what is left. -/
def dispatchStream (opts : PinManagerOpts) : List PinningOperation → PinManager → PinManager
  | [], s => { s with next := none, pinQueue := [] }
  | op :: rest, s =>
    if freeSlot opts s.running then
      if runnable opts s.running op then
        dispatchStream opts rest (startOp s op)
      else
        dispatchStream opts rest { s with pendingPins := s.pendingPins ++ [op] }
    else
      { s with next := some op, pinQueue := rest }

/-- Modelled from the spec: one full dispatch pass of the dispatcher
(spec section 4.4): pending map first (the tie-break of section 4.4), then the
durable queue stream. -/
def dispatchAll (opts : PinManagerOpts) (s : PinManager) : PinManager :=
  let s1 := dispatchPending opts s.pendingPins { s with pendingPins := [] }
  dispatchStream opts (s1.next.toList ++ s1.pinQueue) s1

/-- Modelled from the spec: `Add` (spec sections 4.4 and 4.6): if the
duplicate guard already holds the operation's key the call is a no-op
returning success; otherwise the key is claimed, the operation is appended to
the durable queue, and a dispatch pass runs. -/
def PinManager.Add (s : PinManager) (opts : PinManagerOpts)
    (op : PinningOperation) : PinManager :=
  if opKey op ∈ s.duplicateGuard then s
  else
    dispatchAll opts
      { s with duplicateGuard := opKey op :: s.duplicateGuard,
               dispSince := (opKey op, 0) :: s.dispSince,
               pinQueue := s.pinQueue ++ [op] }

/-- Modelled from the spec: the dispatcher's `done(userId)` handling
(spec section 4.4): the finished operation leaves `running`, its duplicate
guard claim is released, its ghost counter entry is dropped, and a dispatch
pass runs for the freed slot.  A completion report for an operation that is
not running is ignored. -/
def PinManager.doneRun (s : PinManager) (opts : PinManagerOpts)
    (op : PinningOperation) : PinManager :=
  if op ∈ s.running then
    dispatchAll opts
      { s with running := s.running.erase op,
               duplicateGuard := s.duplicateGuard.erase (opKey op),
               dispSince := eraseKey s.dispSince (opKey op) }
  else s

/-- Modelled from the spec: the two event sources of the dispatcher,
`add` and `done` (spec section 4.4). -/
inductive PinEvent where
  | add (op : PinningOperation)
  | done (op : PinningOperation)
deriving DecidableEq

/-- Apply one dispatcher event. -/
def applyEvent (opts : PinManagerOpts) (s : PinManager) : PinEvent → PinManager
  | .add op => s.Add opts op
  | .done op => s.doneRun opts op

/-- An execution of the manager: a trace of events folded over the fresh
state. -/
def runTrace (opts : PinManagerOpts) (evs : List PinEvent) : PinManager :=
  evs.foldl (applyEvent opts) NewPinManager

/-- States an execution of the manager can reach. -/
inductive Reachable (opts : PinManagerOpts) : PinManager → Prop
  | init : Reachable opts NewPinManager
  | step : ∀ {s} (ev : PinEvent), Reachable opts s → Reachable opts (applyEvent opts s ev)

/-- Modelled from the spec: closing a manager and constructing a fresh one
over the same `QueueDataDir` (spec sections 4.1, 4.2 and 8, P5).  The durable
stores survive: every operation never handed to `DoPin` (the popped head, the
pending map — rebuilt from the durable queue on restart — and the queue)
is in the new instance's durable queue, and the duplicate guard holds exactly
those keys.  Ghost fields start fresh for the new instance. -/
def closeReopen (s : PinManager) : PinManager :=
  { duplicateGuard := (undispatchedOps s).map opKey,
    pinQueue := undispatchedOps s,
    next := none,
    pendingPins := [],
    running := [],
    doPinHist := [],
    dispSince := (undispatchedOps s).map (fun op => (opKey op, 0)) }

/-- Modelled from the spec: running the manager until the queue drains
(spec section 8, scenarios 3-6): repeatedly run a dispatch pass and complete
one running operation, until nothing is running after a pass. -/
def drain (opts : PinManagerOpts) : Nat → PinManager → PinManager
  | 0, s => s
  | fuel + 1, s =>
    let s1 := dispatchAll opts s
    match s1.running with
    | [] => s1
    | op :: _ => drain opts fuel (s1.doneRun opts op)

/-! ### Shuttle in-progress gates (cmd/estuary-shuttle/rpc.go) -/

/-- `Shuttle.markStartAggr` (rpc.go): under `aggrLk`, test-and-set the
`aggrInProgress` map (modelled as its characteristic function on content
ids); returns `true` and records the id iff it was absent. -/
def markStartAggr (m : Nat → Bool) (cont : Nat) : Bool × (Nat → Bool) :=
  if m cont then (false, m)
  else (true, fun c => if c = cont then true else m c)

/-- `Shuttle.finishAggr` (rpc.go): under `aggrLk`, delete the content id from
the `aggrInProgress` map. -/
def finishAggr (m : Nat → Bool) (cont : Nat) : Nat → Bool :=
  fun c => if c = cont then false else m c

/-! ### Shuttle.addPin (cmd/estuary-shuttle/rpc.go) -/

/-- A row of the shuttle's `Pin` table, with the fields `addPin` consults
(`gorm` metadata, `Size`, `Aggregate`, `DagSplit`, `SplitFrom` and the cid
payload details are not consulted by `addPin`'s branching and are omitted;
the cid is modelled as `Nat`). -/
structure Pin where
  id : Nat
  content : Nat
  cidv : Nat
  userID : Nat
  active : Bool
  pinning : Bool
  failed : Bool
deriving DecidableEq

/-- The RPC messages `addPin` can emit towards the primary node: a Failed
pin-status update, or (asynchronously, via `resendPinComplete`) a pin-complete
message. -/
inductive ShuttleMsg where
  | updatePinStatusFailed (dbid : Nat)
  | pinComplete (dbid : Nat)
deriving DecidableEq

/-- The observable effect of one `addPin` call: the pin table afterwards, the
operations handed to `PinMgr.Add`, and the RPC messages sent. -/
structure AddPinResult where
  db : List Pin
  mgrAdds : List PinningOperation
  msgs : List ShuttleMsg
deriving DecidableEq

/-- `Shuttle.addPin` (rpc.go lines 88-171), with the database modelled as the
list of `Pin` rows and database operations assumed to succeed (their error
returns are not modelled; on every modelled path `addPin` returns nil).
`search` is `DB.Find(&search, "content = ?", contid)`; a found row that is
`Failed` only re-sends the Failed status notification; a row that is done
(`!Pinning && Active`) re-sends pin-complete; a row with both flags false is
flipped back to `pinning` and re-added to the manager; otherwise (still
pinning) the operation is handed to the manager as is; with no row at all a
fresh row is created (`nextId` models the autoincrement id) and the operation
is handed to the manager. -/
def addPin (db : List Pin) (nextId : Nat) (contid : Nat) (data : Nat)
    (user : Nat) (skipLimiter : Bool) : AddPinResult :=
  let search := db.filter (fun p => p.content == contid)
  match search with
  | [] =>
      let pin : Pin := ⟨nextId, contid, data, user, false, true, false⟩
      { db := db ++ [pin],
        mgrAdds := [⟨contid, user, data, "", skipLimiter⟩],
        msgs := [] }
  | existing :: _ =>
      if existing.failed then
        { db := db, mgrAdds := [], msgs := [.updatePinStatusFailed contid] }
      else if !existing.pinning && existing.active then
        { db := db, mgrAdds := [], msgs := [.pinComplete existing.content] }
      else
        let db' :=
          if !existing.active && !existing.pinning then
            db.map (fun p => if p.id == existing.id then { p with pinning := true } else p)
          else db
        { db := db',
          mgrAdds := [⟨contid, user, data, "", skipLimiter⟩],
          msgs := [] }

/-! ### Config.AddListener (node config) -/

/-- The node `Config` (config package in `part_000`), restricted to the
listener/announce address lists; the blockstore, write-log, datastore, wallet
and bitswap fields are never touched by `AddListener` and are omitted. -/
structure Config where
  listenAddrs : List String
  announceAddrs : List String
deriving DecidableEq

/-- `Config.AddListener` (part_000 lines 100-107): return unchanged if the
address already occurs in `ListenAddrs` (the loop's early return), otherwise
append it at the tail. -/
def Config.AddListener (cfg : Config) (newAddr : String) : Config :=
  if newAddr ∈ cfg.listenAddrs then cfg
  else { cfg with listenAddrs := cfg.listenAddrs ++ [newAddr] }

/-! ## Claim theorems: shuttle gates and config -/

/-- C8: the duplicate-guard claim operation `markStartAggr` is a test-and-set
returning true iff the key was absent before the call; a second claim of the
same key returns false until the key is released; and `finishAggr` is
idempotent: releasing an absent key is a no-op and releasing twice equals
releasing once. -/
theorem claim_C8 :
    (∀ (m : Nat → Bool) (c : Nat), (markStartAggr m c).fst = true ↔ m c = false)
    ∧ (∀ (m : Nat → Bool) (c : Nat),
        (markStartAggr (markStartAggr m c).snd c).fst = false)
    ∧ (∀ (m : Nat → Bool) (c : Nat), m c = false → finishAggr m c = m)
    ∧ (∀ (m : Nat → Bool) (c : Nat),
        finishAggr (finishAggr m c) c = finishAggr m c) := by
  refine ⟨?_, ?_, ?_, ?_⟩
  · intro m c
    by_cases h : m c
    · simp [markStartAggr, h]
    · simp [markStartAggr, h]
  · intro m c
    by_cases h : m c
    · simp [markStartAggr, h]
    · simp [markStartAggr, h]
  · intro m c h
    funext x
    by_cases hx : x = c
    · simp [finishAggr, hx, h]
    · simp [finishAggr, hx]
  · intro m c
    funext x
    by_cases hx : x = c
    · simp [finishAggr, hx]
    · simp [finishAggr, hx]

/-- Witness for C8 at a concrete map and key. -/
theorem claim_C8_witness :
    ((fun _ : Nat => false) 7 = false) ∧ finishAggr (fun _ => false) 7 = (fun _ => false) :=
  ⟨rfl, claim_C8.2.2.1 (fun _ => false) 7 rfl⟩

/-- C9: when `addPin` finds an existing `Pin` row for the content id and that
row is marked `Failed`, the call succeeds while leaving the pin table
unchanged, handing nothing to `PinMgr.Add`, and sending exactly the Failed
pin-status notification to the primary node. -/
theorem claim_C9 (db : List Pin) (nextId contid data user : Nat) (skipLimiter : Bool)
    (p : Pin) (rest : List Pin)
    (hsearch : db.filter (fun q => q.content == contid) = p :: rest)
    (hfailed : p.failed = true) :
    addPin db nextId contid data user skipLimiter =
      { db := db, mgrAdds := [], msgs := [.updatePinStatusFailed contid] } := by
  unfold addPin
  rw [hsearch]
  simp [hfailed]

/-- Witness for C9: one failed row in the table. -/
theorem claim_C9_witness :
    addPin [⟨1, 5, 9, 2, false, false, true⟩] 2 5 9 2 false =
      { db := [⟨1, 5, 9, 2, false, false, true⟩], mgrAdds := [],
        msgs := [.updatePinStatusFailed 5] } :=
  claim_C9 [⟨1, 5, 9, 2, false, false, true⟩] 2 5 9 2 false
    ⟨1, 5, 9, 2, false, false, true⟩ [] (by decide) rfl

/-- C10: `Config.AddListener` is idempotent: an address already present
leaves the configuration unchanged, an absent address is appended exactly
once at the tail, and adding twice equals adding once. -/
theorem claim_C10 :
    (∀ (cfg : Config) (a : String), a ∈ cfg.listenAddrs → cfg.AddListener a = cfg)
    ∧ (∀ (cfg : Config) (a : String), a ∉ cfg.listenAddrs →
        cfg.AddListener a = { cfg with listenAddrs := cfg.listenAddrs ++ [a] })
    ∧ (∀ (cfg : Config) (a : String),
        (cfg.AddListener a).AddListener a = cfg.AddListener a) := by
  refine ⟨?_, ?_, ?_⟩
  · intro cfg a h
    simp [Config.AddListener, h]
  · intro cfg a h
    simp [Config.AddListener, h]
  · intro cfg a
    by_cases h : a ∈ cfg.listenAddrs
    · simp [Config.AddListener, h]
    · simp [Config.AddListener, h]

/-- Witness for C10 at a concrete configuration. -/
theorem claim_C10_witness :
    ("x" ∈ (Config.mk ["x"] []).listenAddrs)
    ∧ (Config.mk ["x"] []).AddListener "x" = Config.mk ["x"] [] :=
  ⟨by decide, claim_C10.1 (Config.mk ["x"] []) "x" (by decide)⟩

/-! ## Ghost-map lemmas -/

theorem bumpKey_map_fst (l : List ((Nat × Nat) × Nat)) (k : Nat × Nat) :
    (bumpKey l k).map Prod.fst = l.map Prod.fst := by
  induction l with
  | nil => rfl
  | cons kn rest ih =>
    obtain ⟨k0, n0⟩ := kn
    by_cases h : k0 = k
    · simp [bumpKey, h]
    · simp [bumpKey, h, ih]

theorem lookupKey_bump_self (l : List ((Nat × Nat) × Nat)) (k : Nat × Nat) (n : Nat)
    (h : lookupKey l k = some n) : lookupKey (bumpKey l k) k = some (n + 1) := by
  induction l with
  | nil => simp [lookupKey] at h
  | cons kn rest ih =>
    obtain ⟨k0, n0⟩ := kn
    by_cases hk : k0 = k
    · simp only [lookupKey, if_pos hk] at h
      simp only [bumpKey, if_pos hk, lookupKey, if_pos hk]
      simpa using h
    · simp only [lookupKey, if_neg hk] at h
      simp only [bumpKey, if_neg hk, lookupKey, if_neg hk]
      exact ih h

theorem lookupKey_bump_ne (l : List ((Nat × Nat) × Nat)) (k k' : Nat × Nat)
    (hne : k' ≠ k) : lookupKey (bumpKey l k) k' = lookupKey l k' := by
  induction l with
  | nil => rfl
  | cons kn rest ih =>
    obtain ⟨k0, n0⟩ := kn
    by_cases hk : k0 = k
    · simp [bumpKey, hk, lookupKey, Ne.symm hne]
    · by_cases hk2 : k0 = k'
      · simp [bumpKey, hk, lookupKey, hk2, Ne.symm hne, fun h : k' = k => hne h]
      · simp [bumpKey, hk, lookupKey, hk2, ih]

theorem eraseKey_map_fst (l : List ((Nat × Nat) × Nat)) (k : Nat × Nat) :
    (eraseKey l k).map Prod.fst = (l.map Prod.fst).erase k := by
  induction l with
  | nil => rfl
  | cons kn rest ih =>
    obtain ⟨k0, n0⟩ := kn
    by_cases hk : k0 = k
    · simp [eraseKey, hk, List.erase_cons]
    · simp [eraseKey, hk, List.erase_cons, ih]

theorem lookupKey_erase_ne (l : List ((Nat × Nat) × Nat)) (k k' : Nat × Nat)
    (hne : k' ≠ k) : lookupKey (eraseKey l k) k' = lookupKey l k' := by
  induction l with
  | nil => rfl
  | cons kn rest ih =>
    obtain ⟨k0, n0⟩ := kn
    by_cases hk : k0 = k
    · simp [eraseKey, hk, lookupKey, Ne.symm hne]
    · by_cases hk2 : k0 = k'
      · simp [eraseKey, hk, lookupKey, hk2, Ne.symm hne, fun h : k' = k => hne h]
      · simp [eraseKey, hk, lookupKey, hk2, ih]

theorem lookupKey_mem (l : List ((Nat × Nat) × Nat)) (k : Nat × Nat) (n : Nat)
    (hmem : (k, n) ∈ l) (hnd : (l.map Prod.fst).Nodup) : lookupKey l k = some n := by
  induction l with
  | nil => simp at hmem
  | cons kn rest ih =>
    obtain ⟨k0, n0⟩ := kn
    simp only [List.map_cons, List.nodup_cons] at hnd
    rcases List.mem_cons.mp hmem with heq | hrest
    · obtain ⟨hk, hn⟩ := Prod.mk.injEq .. ▸ heq
      simp [lookupKey, hk.symm, hn]
    · by_cases hk : k0 = k
      · exact absurd (hk ▸ (List.mem_map.mpr ⟨(k, n), hrest, rfl⟩)) hnd.1
      · simp only [lookupKey, if_neg hk]
        exact ih hrest hnd.2

/-! ## Structural description of the dispatch passes

Each pass starts a sequence `δ` of operations — appended both to `running`
and to the `DoPin` history — conserves the multiset of tracked operations,
and leaves the duplicate guard and the ghost-map key set unchanged. -/

theorem dispatchPending_delta (opts : PinManagerOpts) :
    ∀ (l : List PinningOperation) (s : PinManager),
    ∃ δ : List PinningOperation,
      (dispatchPending opts l s).running = s.running ++ δ ∧
      (dispatchPending opts l s).doPinHist = s.doPinHist ++ δ ∧
      ((δ : Multiset PinningOperation) + ↑(dispatchPending opts l s).pendingPins
        = ↑l + ↑s.pendingPins) ∧
      (dispatchPending opts l s).pinQueue = s.pinQueue ∧
      (dispatchPending opts l s).next = s.next ∧
      (dispatchPending opts l s).duplicateGuard = s.duplicateGuard ∧
      (dispatchPending opts l s).dispSince.map Prod.fst = s.dispSince.map Prod.fst := by
  intro l
  induction l with
  | nil =>
    intro s
    exact ⟨[], by simp [dispatchPending], by simp [dispatchPending],
      by simp [dispatchPending], rfl, rfl, rfl, rfl⟩
  | cons op rest ih =>
    intro s
    by_cases hc : (freeSlot opts s.running && runnable opts s.running op) = true
    · obtain ⟨δ', h1, h2, h3, h4, h5, h6, h7⟩ := ih (startOp s op)
      refine ⟨op :: δ', ?_, ?_, ?_, ?_, ?_, ?_, ?_⟩
      · simp only [dispatchPending, if_pos hc]
        rw [h1]; simp [startOp]
      · simp only [dispatchPending, if_pos hc]
        rw [h2]; simp [startOp]
      · simp only [dispatchPending, if_pos hc]
        have : ((op :: δ' : List PinningOperation) : Multiset PinningOperation)
            = {op} + ↑δ' := by
          simp [Multiset.singleton_add]
        rw [this, add_assoc, h3]
        simp [startOp, Multiset.singleton_add]
      · simp only [dispatchPending, if_pos hc]; rw [h4]; rfl
      · simp only [dispatchPending, if_pos hc]; rw [h5]; rfl
      · simp only [dispatchPending, if_pos hc]; rw [h6]; rfl
      · simp only [dispatchPending, if_pos hc]
        rw [h7]; simp [startOp, bumpKey_map_fst]
    · obtain ⟨δ', h1, h2, h3, h4, h5, h6, h7⟩ :=
        ih { s with pendingPins := s.pendingPins ++ [op] }
      refine ⟨δ', ?_, ?_, ?_, ?_, ?_, ?_, ?_⟩
      · simp only [dispatchPending, if_neg hc]; rw [h1]
      · simp only [dispatchPending, if_neg hc]; rw [h2]
      · simp only [dispatchPending, if_neg hc]
        rw [h3]
        have hperm : List.Perm (s.pendingPins ++ [op]) (op :: s.pendingPins) :=
          List.perm_append_singleton op s.pendingPins
        calc (↑rest + ↑(s.pendingPins ++ [op]) : Multiset PinningOperation)
            = ↑rest + ↑(op :: s.pendingPins) := by
              rw [Multiset.coe_eq_coe.mpr hperm]
          _ = ↑(op :: rest) + ↑s.pendingPins := by
              simp only [← Multiset.cons_coe, Multiset.cons_add, Multiset.add_cons]
      · simp only [dispatchPending, if_neg hc]; rw [h4]
      · simp only [dispatchPending, if_neg hc]; rw [h5]
      · simp only [dispatchPending, if_neg hc]; rw [h6]
      · simp only [dispatchPending, if_neg hc]; rw [h7]

theorem dispatchStream_delta (opts : PinManagerOpts) :
    ∀ (l : List PinningOperation) (s : PinManager),
    ∃ δ : List PinningOperation,
      (dispatchStream opts l s).running = s.running ++ δ ∧
      (dispatchStream opts l s).doPinHist = s.doPinHist ++ δ ∧
      List.Perm
        (δ ++ ((dispatchStream opts l s).next.toList
          ++ (dispatchStream opts l s).pinQueue
          ++ (dispatchStream opts l s).pendingPins))
        (l ++ s.pendingPins) ∧
      (dispatchStream opts l s).duplicateGuard = s.duplicateGuard ∧
      (dispatchStream opts l s).dispSince.map Prod.fst = s.dispSince.map Prod.fst := by
  intro l
  induction l with
  | nil =>
    intro s
    refine ⟨[], by simp [dispatchStream], by simp [dispatchStream], by simp [dispatchStream],
      by simp [dispatchStream], by simp [dispatchStream]⟩
  | cons op rest ih =>
    intro s
    by_cases hfree : freeSlot opts s.running = true
    · by_cases hrun : runnable opts s.running op = true
      · have hred : dispatchStream opts (op :: rest) s = dispatchStream opts rest (startOp s op) := by
          simp [dispatchStream, hfree, hrun]
        obtain ⟨δ', h1, h2, h3, h4, h5⟩ := ih (startOp s op)
        refine ⟨op :: δ', ?_, ?_, ?_, ?_, ?_⟩
        · rw [hred, h1]; simp [startOp]
        · rw [hred, h2]; simp [startOp]
        · rw [hred]
          have h3' : List.Perm
              (δ' ++ ((dispatchStream opts rest (startOp s op)).next.toList
                ++ (dispatchStream opts rest (startOp s op)).pinQueue
                ++ (dispatchStream opts rest (startOp s op)).pendingPins))
              (rest ++ s.pendingPins) := h3
          simpa [List.cons_append] using h3'.cons op
        · rw [hred, h4]; rfl
        · rw [hred, h5]; simp [startOp, bumpKey_map_fst]
      · have hred : dispatchStream opts (op :: rest) s
            = dispatchStream opts rest { s with pendingPins := s.pendingPins ++ [op] } := by
          simp [dispatchStream, hfree, hrun]
        obtain ⟨δ', h1, h2, h3, h4, h5⟩ := ih { s with pendingPins := s.pendingPins ++ [op] }
        refine ⟨δ', ?_, ?_, ?_, ?_, ?_⟩
        · rw [hred, h1]
        · rw [hred, h2]
        · rw [hred]
          have hmv : List.Perm (rest ++ (s.pendingPins ++ [op])) ((op :: rest) ++ s.pendingPins) := by
            have h1p := List.perm_append_singleton op (rest ++ s.pendingPins)
            simpa [List.append_assoc] using h1p
          exact h3.trans hmv
        · rw [hred, h4]
        · rw [hred, h5]
    · have hred : dispatchStream opts (op :: rest) s
          = { s with next := some op, pinQueue := rest } := by
        simp [dispatchStream, hfree]
      refine ⟨[], ?_, ?_, ?_, ?_, ?_⟩
      · rw [hred]; simp
      · rw [hred]; simp
      · rw [hred]; simp
      · rw [hred]
      · rw [hred]

theorem dispatchAll_delta (opts : PinManagerOpts) (s : PinManager) :
    ∃ δ : List PinningOperation,
      (dispatchAll opts s).running = s.running ++ δ ∧
      (dispatchAll opts s).doPinHist = s.doPinHist ++ δ ∧
      List.Perm (δ ++ undispatchedOps (dispatchAll opts s)) (undispatchedOps s) ∧
      (dispatchAll opts s).duplicateGuard = s.duplicateGuard ∧
      (dispatchAll opts s).dispSince.map Prod.fst = s.dispSince.map Prod.fst := by
  obtain ⟨δ1, p1, p2, p3, p4, p5, p6, p7⟩ :=
    dispatchPending_delta opts s.pendingPins { s with pendingPins := [] }
  obtain ⟨δ2, q1, q2, q3, q4, q5⟩ :=
    dispatchStream_delta opts
      ((dispatchPending opts s.pendingPins { s with pendingPins := [] }).next.toList
        ++ (dispatchPending opts s.pendingPins { s with pendingPins := [] }).pinQueue)
      (dispatchPending opts s.pendingPins { s with pendingPins := [] })
  refine ⟨δ1 ++ δ2, ?_, ?_, ?_, ?_, ?_⟩
  · show (dispatchStream opts _ _).running = _
    rw [q1, p1]; simp
  · show (dispatchStream opts _ _).doPinHist = _
    rw [q2, p2]; simp
  · show List.Perm ((δ1 ++ δ2) ++ undispatchedOps (dispatchStream opts _ _)) _
    rw [← Multiset.coe_eq_coe]
    have hA : (↑δ1 + ↑(dispatchPending opts s.pendingPins { s with pendingPins := [] }).pendingPins
        : Multiset PinningOperation) = ↑s.pendingPins := by
      rw [p3]; simp
    have hB := Multiset.coe_eq_coe.mpr q3
    refine Multiset.ext.mpr fun a => ?_
    have cA := congrArg (Multiset.count a) hA
    have cB := congrArg (Multiset.count a) hB
    simp only [undispatchedOps, ← Multiset.coe_add, Multiset.count_add, p4, p5] at cA cB ⊢
    omega
  · show (dispatchStream opts _ _).duplicateGuard = _
    rw [q4, p6]
  · show ((dispatchStream opts _ _).dispSince).map Prod.fst = _
    rw [q5, p7]

theorem dispatchAll_sysCount (opts : PinManagerOpts) (s : PinManager) :
    sysCount (dispatchAll opts s) = sysCount s := by
  obtain ⟨δ, h1, _, h3, _, _⟩ := dispatchAll_delta opts s
  have hlen := h3.length_eq
  simp only [List.length_append] at hlen
  simp only [sysCount, trackedOps, List.length_append, h1]
  omega

/-- The conserved multiset: operations already handed to `DoPin` together
with the tracked operations not yet dispatched. -/
def histM (s : PinManager) : List PinningOperation :=
  s.doPinHist ++ undispatchedOps s

theorem dispatchAll_histM (opts : PinManagerOpts) (s : PinManager) :
    List.Perm (histM (dispatchAll opts s)) (histM s) := by
  obtain ⟨δ, _, h2, h3, _, _⟩ := dispatchAll_delta opts s
  simp only [histM, h2, List.append_assoc]
  exact List.Perm.append_left s.doPinHist h3

theorem dispatchAll_guard (opts : PinManagerOpts) (s : PinManager) :
    (dispatchAll opts s).duplicateGuard = s.duplicateGuard := by
  obtain ⟨δ, _, _, _, h4, _⟩ := dispatchAll_delta opts s
  exact h4

theorem dispatchAll_hist_prefix (opts : PinManagerOpts) (s : PinManager) :
    ∃ δ, (dispatchAll opts s).doPinHist = s.doPinHist ++ δ ∧
      (dispatchAll opts s).running = s.running ++ δ := by
  obtain ⟨δ, h1, h2, _, _, _⟩ := dispatchAll_delta opts s
  exact ⟨δ, h2, h1⟩

/-! ## The dispatcher invariant -/

/-- The core scheduling invariant, stated over the duplicate guard, the ghost
dispatch counters, the multiset `undisp` of tracked-but-undispatched
operations, and the running list:
* keys of tracked operations are pairwise distinct;
* the duplicate guard holds exactly the keys of tracked operations;
* the ghost counter map is keyed exactly by the guard;
* an undispatched tracked operation has ghost counter 0, a running one 1;
* per user, at most `MaxActivePerUser` non-skip operations run. -/
structure InvCore (opts : PinManagerOpts) (guard : List (Nat × Nat))
    (disp : List ((Nat × Nat) × Nat)) (undisp : Multiset PinningOperation)
    (running : List PinningOperation) : Prop where
  nodupKeys : (Multiset.map opKey undisp + ↑(running.map opKey)).Nodup
  guardMem : ∀ k, k ∈ guard ↔ (k ∈ Multiset.map opKey undisp ∨ k ∈ running.map opKey)
  guardNodup : guard.Nodup
  dispKeys : disp.map Prod.fst = guard
  dispUndisp : ∀ op ∈ undisp, lookupKey disp (opKey op) = some 0
  dispRunning : ∀ op ∈ running, lookupKey disp (opKey op) = some 1
  capOK : ∀ u, (running.filter (fun q => !q.skipLimiter && q.userId == u)).length
      ≤ opts.maxActivePerUser

/-- The dispatcher invariant of a manager state. -/
def PMInv (opts : PinManagerOpts) (s : PinManager) : Prop :=
  InvCore opts s.duplicateGuard s.dispSince (↑(undispatchedOps s)) s.running

theorem nonskip_le_userRunningCount (running : List PinningOperation) (u : Nat) :
    (running.filter (fun q => !q.skipLimiter && q.userId == u)).length
      ≤ userRunningCount running u := by
  refine (List.monotone_filter_right running ?_).length_le
  intro q hq
  exact (Bool.and_eq_true ..).mp hq |>.2

theorem InvCore.start (opts : PinManagerOpts) {guard : List (Nat × Nat)}
    {disp : List ((Nat × Nat) × Nat)} {undisp : Multiset PinningOperation}
    {running : List PinningOperation} {op : PinningOperation}
    (h : InvCore opts guard disp (op ::ₘ undisp) running)
    (hrun : runnable opts running op = true) :
    InvCore opts guard (bumpKey disp (opKey op)) undisp (running ++ [op]) := by
  have hnodup0 := h.nodupKeys
  rw [Multiset.map_cons] at hnodup0
  have hnodup1 : (opKey op ::ₘ (Multiset.map opKey undisp + ↑(running.map opKey))).Nodup := by
    have : (opKey op ::ₘ Multiset.map opKey undisp) + ↑(running.map opKey)
        = opKey op ::ₘ (Multiset.map opKey undisp + ↑(running.map opKey)) := by
      simp only [← Multiset.singleton_add]; abel
    rw [← this]; exact hnodup0
  obtain ⟨hknotin, hnodup⟩ := Multiset.nodup_cons.mp hnodup1
  have hkU : opKey op ∉ Multiset.map opKey undisp := fun hc =>
    hknotin (Multiset.mem_add.mpr (Or.inl hc))
  have hkR : opKey op ∉ running.map opKey := fun hc =>
    hknotin (Multiset.mem_add.mpr (Or.inr (by exact_mod_cast hc)))
  have hlk0 : lookupKey disp (opKey op) = some 0 :=
    h.dispUndisp op (Multiset.mem_cons_self op undisp)
  refine ⟨?_, ?_, h.guardNodup, ?_, ?_, ?_, ?_⟩
  · have : Multiset.map opKey undisp + ↑((running ++ [op]).map opKey)
        = opKey op ::ₘ (Multiset.map opKey undisp + ↑(running.map opKey)) := by
      simp only [List.map_append, List.map_cons, List.map_nil, ← Multiset.coe_add,
        ← Multiset.cons_coe, ← Multiset.singleton_add]
      abel
    rw [this]; exact hnodup1
  · intro k
    rw [h.guardMem k]
    simp only [Multiset.map_cons, Multiset.mem_cons, List.map_append, List.map_cons,
      List.map_nil, List.mem_append, List.mem_cons, List.not_mem_nil, or_false]
    tauto
  · rw [bumpKey_map_fst]; exact h.dispKeys
  · intro q hq
    have hne : opKey q ≠ opKey op := fun hc =>
      hkU (hc ▸ Multiset.mem_map_of_mem opKey hq)
    rw [lookupKey_bump_ne disp (opKey op) (opKey q) hne]
    exact h.dispUndisp q (Multiset.mem_cons_of_mem hq)
  · intro q hq
    rcases List.mem_append.mp hq with hqr | hqo
    · have hne : opKey q ≠ opKey op := fun hc =>
        hkR (hc ▸ List.mem_map.mpr ⟨q, hqr, rfl⟩)
      rw [lookupKey_bump_ne disp (opKey op) (opKey q) hne]
      exact h.dispRunning q hqr
    · have hq' : q = op := by simpa using hqo
      subst hq'
      exact lookupKey_bump_self disp (opKey q) 0 hlk0
  · intro u
    by_cases hskip : op.skipLimiter = true
    · have : (running ++ [op]).filter (fun q => !q.skipLimiter && q.userId == u)
          = running.filter (fun q => !q.skipLimiter && q.userId == u) := by
        simp [List.filter_append, hskip]
      rw [this]; exact h.capOK u
    · have hskipf : op.skipLimiter = false := by simpa using hskip
      have hcount : userRunningCount running op.userId < opts.maxActivePerUser := by
        simp only [runnable, hskipf, Bool.false_or, decide_eq_true_eq] at hrun
        exact hrun
      by_cases hu : op.userId = u
      · have : (running ++ [op]).filter (fun q => !q.skipLimiter && q.userId == u)
            = running.filter (fun q => !q.skipLimiter && q.userId == u) ++ [op] := by
          simp [List.filter_append, hskipf, hu]
        rw [this, List.length_append, List.length_singleton]
        have h1 := nonskip_le_userRunningCount running u
        have h2 : userRunningCount running u < opts.maxActivePerUser := hu ▸ hcount
        omega
      · have : (running ++ [op]).filter (fun q => !q.skipLimiter && q.userId == u)
            = running.filter (fun q => !q.skipLimiter && q.userId == u) := by
          simp [List.filter_append, hskipf, hu]
        rw [this]; exact h.capOK u

theorem dispatchPending_inv (opts : PinManagerOpts) :
    ∀ (l : List PinningOperation) (s : PinManager),
    InvCore opts s.duplicateGuard s.dispSince
      (↑l + ↑s.pendingPins + ↑s.next.toList + ↑s.pinQueue) s.running →
    InvCore opts (dispatchPending opts l s).duplicateGuard
      (dispatchPending opts l s).dispSince
      (↑(dispatchPending opts l s).pendingPins
        + ↑(dispatchPending opts l s).next.toList
        + ↑(dispatchPending opts l s).pinQueue)
      (dispatchPending opts l s).running := by
  intro l
  induction l with
  | nil =>
    intro s h
    simpa [dispatchPending] using h
  | cons op rest ih =>
    intro s h
    by_cases hc : (freeSlot opts s.running && runnable opts s.running op) = true
    · have hred : dispatchPending opts (op :: rest) s
          = dispatchPending opts rest (startOp s op) := by
        simp [dispatchPending, hc]
      rw [hred]
      apply ih (startOp s op)
      show InvCore opts s.duplicateGuard (bumpKey s.dispSince (opKey op))
        (↑rest + ↑s.pendingPins + ↑s.next.toList + ↑s.pinQueue) (s.running ++ [op])
      have hm : (↑(op :: rest) + ↑s.pendingPins + ↑s.next.toList + ↑s.pinQueue
          : Multiset PinningOperation)
          = op ::ₘ (↑rest + ↑s.pendingPins + ↑s.next.toList + ↑s.pinQueue) := by
        simp only [← Multiset.cons_coe, ← Multiset.singleton_add]
        abel
      rw [hm] at h
      exact InvCore.start opts h ((Bool.and_eq_true ..).mp hc).2
    · have hred : dispatchPending opts (op :: rest) s
          = dispatchPending opts rest { s with pendingPins := s.pendingPins ++ [op] } := by
        simp [dispatchPending, hc]
      rw [hred]
      apply ih { s with pendingPins := s.pendingPins ++ [op] }
      show InvCore opts s.duplicateGuard s.dispSince
        (↑rest + ↑(s.pendingPins ++ [op]) + ↑s.next.toList + ↑s.pinQueue) s.running
      have hm : (↑rest + ↑(s.pendingPins ++ [op]) + ↑s.next.toList + ↑s.pinQueue
          : Multiset PinningOperation)
          = ↑(op :: rest) + ↑s.pendingPins + ↑s.next.toList + ↑s.pinQueue := by
        simp only [← Multiset.coe_add, ← Multiset.cons_coe, ← Multiset.singleton_add]
        abel
      rw [hm]
      exact h

theorem dispatchStream_inv (opts : PinManagerOpts) :
    ∀ (l : List PinningOperation) (s : PinManager),
    InvCore opts s.duplicateGuard s.dispSince (↑l + ↑s.pendingPins) s.running →
    InvCore opts (dispatchStream opts l s).duplicateGuard
      (dispatchStream opts l s).dispSince
      (↑(dispatchStream opts l s).next.toList
        + ↑(dispatchStream opts l s).pendingPins
        + ↑(dispatchStream opts l s).pinQueue)
      (dispatchStream opts l s).running := by
  intro l
  induction l with
  | nil =>
    intro s h
    have hred : dispatchStream opts [] s = { s with next := none, pinQueue := [] } := by
      simp [dispatchStream]
    rw [hred]
    show InvCore opts s.duplicateGuard s.dispSince
      (↑((none : Option PinningOperation)).toList + ↑s.pendingPins
        + ↑([] : List PinningOperation)) s.running
    simpa using h
  | cons op rest ih =>
    intro s h
    by_cases hfree : freeSlot opts s.running = true
    · by_cases hrun : runnable opts s.running op = true
      · have hred : dispatchStream opts (op :: rest) s
            = dispatchStream opts rest (startOp s op) := by
          simp [dispatchStream, hfree, hrun]
        rw [hred]
        apply ih (startOp s op)
        show InvCore opts s.duplicateGuard (bumpKey s.dispSince (opKey op))
          (↑rest + ↑s.pendingPins) (s.running ++ [op])
        have hm : (↑(op :: rest) + ↑s.pendingPins : Multiset PinningOperation)
            = op ::ₘ (↑rest + ↑s.pendingPins) := by
          simp only [← Multiset.cons_coe, ← Multiset.singleton_add]
          abel
        rw [hm] at h
        exact InvCore.start opts h hrun
      · have hred : dispatchStream opts (op :: rest) s
            = dispatchStream opts rest { s with pendingPins := s.pendingPins ++ [op] } := by
          simp [dispatchStream, hfree, hrun]
        rw [hred]
        apply ih { s with pendingPins := s.pendingPins ++ [op] }
        show InvCore opts s.duplicateGuard s.dispSince
          (↑rest + ↑(s.pendingPins ++ [op])) s.running
        have hm : (↑rest + ↑(s.pendingPins ++ [op]) : Multiset PinningOperation)
            = ↑(op :: rest) + ↑s.pendingPins := by
          simp only [← Multiset.coe_add, ← Multiset.cons_coe, ← Multiset.singleton_add]
          abel
        rw [hm]
        exact h
    · have hred : dispatchStream opts (op :: rest) s
          = { s with next := some op, pinQueue := rest } := by
        simp [dispatchStream, hfree]
      rw [hred]
      show InvCore opts s.duplicateGuard s.dispSince
        (↑((some op)).toList + ↑s.pendingPins + ↑rest) s.running
      have hm : (↑((some op)).toList + ↑s.pendingPins + ↑rest : Multiset PinningOperation)
          = ↑(op :: rest) + ↑s.pendingPins := by
        simp only [Option.toList_some, ← Multiset.coe_add, ← Multiset.cons_coe,
          ← Multiset.singleton_add]
        abel
      rw [hm]
      exact h

theorem dispatchAll_inv (opts : PinManagerOpts) (s : PinManager) (h : PMInv opts s) :
    PMInv opts (dispatchAll opts s) := by
  unfold PMInv at h
  have hyp0 : InvCore opts s.duplicateGuard s.dispSince
      (↑s.pendingPins + ↑([] : List PinningOperation) + ↑s.next.toList + ↑s.pinQueue)
      s.running := by
    have hm : (↑s.pendingPins + ↑([] : List PinningOperation) + ↑s.next.toList + ↑s.pinQueue
        : Multiset PinningOperation) = ↑(undispatchedOps s) := by
      simp only [undispatchedOps, ← Multiset.coe_add, Multiset.coe_nil]
      abel
    rw [hm]
    exact h
  have h1 := dispatchPending_inv opts s.pendingPins { s with pendingPins := [] } hyp0
  have hyp1 : InvCore opts
      (dispatchPending opts s.pendingPins { s with pendingPins := [] }).duplicateGuard
      (dispatchPending opts s.pendingPins { s with pendingPins := [] }).dispSince
      (↑((dispatchPending opts s.pendingPins { s with pendingPins := [] }).next.toList
          ++ (dispatchPending opts s.pendingPins { s with pendingPins := [] }).pinQueue)
        + ↑(dispatchPending opts s.pendingPins { s with pendingPins := [] }).pendingPins)
      (dispatchPending opts s.pendingPins { s with pendingPins := [] }).running := by
    have hm : (↑((dispatchPending opts s.pendingPins { s with pendingPins := [] }).next.toList
          ++ (dispatchPending opts s.pendingPins { s with pendingPins := [] }).pinQueue)
        + ↑(dispatchPending opts s.pendingPins { s with pendingPins := [] }).pendingPins
        : Multiset PinningOperation)
        = ↑(dispatchPending opts s.pendingPins { s with pendingPins := [] }).pendingPins
          + ↑(dispatchPending opts s.pendingPins { s with pendingPins := [] }).next.toList
          + ↑(dispatchPending opts s.pendingPins { s with pendingPins := [] }).pinQueue := by
      simp only [← Multiset.coe_add]
      abel_nf
    rw [hm]
    exact h1
  have h2 := dispatchStream_inv opts
    ((dispatchPending opts s.pendingPins { s with pendingPins := [] }).next.toList
      ++ (dispatchPending opts s.pendingPins { s with pendingPins := [] }).pinQueue)
    (dispatchPending opts s.pendingPins { s with pendingPins := [] }) hyp1
  show InvCore opts (dispatchAll opts s).duplicateGuard (dispatchAll opts s).dispSince
    (↑(undispatchedOps (dispatchAll opts s))) (dispatchAll opts s).running
  have hm2 : (↑(undispatchedOps (dispatchAll opts s)) : Multiset PinningOperation)
      = ↑(dispatchAll opts s).next.toList + ↑(dispatchAll opts s).pendingPins
        + ↑(dispatchAll opts s).pinQueue := by
    simp only [undispatchedOps, ← Multiset.coe_add]
  rw [hm2]
  exact h2

theorem add_step_inv (opts : PinManagerOpts) (s : PinManager) (op : PinningOperation)
    (hnot : opKey op ∉ s.duplicateGuard) (h : PMInv opts s) :
    PMInv opts { s with duplicateGuard := opKey op :: s.duplicateGuard,
                        dispSince := (opKey op, 0) :: s.dispSince,
                        pinQueue := s.pinQueue ++ [op] } := by
  unfold PMInv at h ⊢
  have hkU : opKey op ∉ Multiset.map opKey (↑(undispatchedOps s)) := fun hc =>
    hnot ((h.guardMem (opKey op)).mpr (Or.inl hc))
  have hkR : opKey op ∉ s.running.map opKey := fun hc =>
    hnot ((h.guardMem (opKey op)).mpr (Or.inr hc))
  show InvCore opts (opKey op :: s.duplicateGuard) ((opKey op, 0) :: s.dispSince)
    (↑(s.next.toList ++ s.pendingPins ++ (s.pinQueue ++ [op]))) s.running
  have hm : (↑(s.next.toList ++ s.pendingPins ++ (s.pinQueue ++ [op]))
      : Multiset PinningOperation) = op ::ₘ ↑(undispatchedOps s) := by
    simp only [undispatchedOps, ← Multiset.coe_add, ← Multiset.cons_coe,
      ← Multiset.singleton_add]
    abel
  rw [hm]
  refine ⟨?_, ?_, ?_, ?_, ?_, ?_, ?_⟩
  · rw [Multiset.map_cons]
    have hme : (opKey op ::ₘ Multiset.map opKey (↑(undispatchedOps s)))
          + ↑(s.running.map opKey)
        = opKey op ::ₘ (Multiset.map opKey (↑(undispatchedOps s)) + ↑(s.running.map opKey)) := by
      simp only [← Multiset.singleton_add]; abel
    rw [hme, Multiset.nodup_cons]
    refine ⟨?_, h.nodupKeys⟩
    intro hc
    rcases Multiset.mem_add.mp hc with hc1 | hc2
    · exact hkU hc1
    · exact hkR (Multiset.mem_coe.mp hc2)
  · intro k
    rw [List.mem_cons, h.guardMem k, Multiset.map_cons, Multiset.mem_cons]
    tauto
  · exact List.nodup_cons.mpr ⟨hnot, h.guardNodup⟩
  · simp [h.dispKeys]
  · intro q hq
    rcases Multiset.mem_cons.mp hq with hq1 | hq2
    · subst hq1
      simp [lookupKey]
    · have hne : opKey op ≠ opKey q := by
        intro hc
        exact hkU (hc ▸ Multiset.mem_map_of_mem opKey hq2)
      simp only [lookupKey, if_neg hne]
      exact h.dispUndisp q hq2
  · intro q hq
    have hne : opKey op ≠ opKey q := by
      intro hc
      exact hkR (hc ▸ List.mem_map.mpr ⟨q, hq, rfl⟩)
    simp only [lookupKey, if_neg hne]
    exact h.dispRunning q hq
  · exact h.capOK

theorem done_step_inv (opts : PinManagerOpts) (s : PinManager) (op : PinningOperation)
    (hop : op ∈ s.running) (h : PMInv opts s) :
    PMInv opts { s with running := s.running.erase op,
                        duplicateGuard := s.duplicateGuard.erase (opKey op),
                        dispSince := eraseKey s.dispSince (opKey op) } := by
  unfold PMInv at h ⊢
  have hRperm : List.Perm s.running (op :: s.running.erase op) := List.perm_cons_erase hop
  have hKperm : List.Perm (s.running.map opKey)
      (opKey op :: (s.running.erase op).map opKey) := by
    simpa using hRperm.map opKey
  have hcoe : (↑(s.running.map opKey) : Multiset (Nat × Nat))
      = opKey op ::ₘ ↑((s.running.erase op).map opKey) := by
    rw [Multiset.coe_eq_coe.mpr hKperm]
    simp [Multiset.cons_coe]
  have hnodup0 := h.nodupKeys
  rw [hcoe] at hnodup0
  have hme : Multiset.map opKey (↑(undispatchedOps s))
        + (opKey op ::ₘ ↑((s.running.erase op).map opKey))
      = opKey op ::ₘ (Multiset.map opKey (↑(undispatchedOps s))
        + ↑((s.running.erase op).map opKey)) := by
    simp only [← Multiset.singleton_add]; abel
  rw [hme, Multiset.nodup_cons] at hnodup0
  obtain ⟨hknotin, hnodup⟩ := hnodup0
  have hkU : opKey op ∉ Multiset.map opKey (↑(undispatchedOps s)) := fun hc =>
    hknotin (Multiset.mem_add.mpr (Or.inl hc))
  have hkE : opKey op ∉ (s.running.erase op).map opKey := fun hc =>
    hknotin (Multiset.mem_add.mpr (Or.inr (Multiset.mem_coe.mpr hc)))
  show InvCore opts (s.duplicateGuard.erase (opKey op)) (eraseKey s.dispSince (opKey op))
    (↑(undispatchedOps s)) (s.running.erase op)
  refine ⟨?_, ?_, ?_, ?_, ?_, ?_, ?_⟩
  · exact hnodup
  · intro k
    rw [h.guardNodup.mem_erase_iff, h.guardMem k]
    constructor
    · rintro ⟨hne, hc1 | hc2⟩
      · exact Or.inl hc1
      · refine Or.inr ?_
        rcases List.mem_cons.mp (hKperm.mem_iff.mp hc2) with he | he
        · exact absurd he hne
        · exact he
    · rintro (hc1 | hc2)
      · exact ⟨fun hc => hkU (hc ▸ hc1), Or.inl hc1⟩
      · refine ⟨fun hc => hkE (hc ▸ hc2), Or.inr ?_⟩
        exact hKperm.mem_iff.mpr (List.mem_cons_of_mem _ hc2)
  · exact h.guardNodup.erase (opKey op)
  · rw [eraseKey_map_fst, h.dispKeys]
  · intro q hq
    have hne : opKey q ≠ opKey op := fun hc =>
      hkU (hc ▸ Multiset.mem_map_of_mem opKey hq)
    rw [lookupKey_erase_ne s.dispSince (opKey op) (opKey q) hne]
    exact h.dispUndisp q hq
  · intro q hq
    have hqR : q ∈ s.running := (List.erase_sublist op s.running).subset hq
    have hne : opKey q ≠ opKey op := fun hc =>
      hkE (hc ▸ List.mem_map.mpr ⟨q, hq, rfl⟩)
    rw [lookupKey_erase_ne s.dispSince (opKey op) (opKey q) hne]
    exact h.dispRunning q hqR
  · intro u
    have hsub : List.Sublist
        ((s.running.erase op).filter (fun q => !q.skipLimiter && q.userId == u))
        (s.running.filter (fun q => !q.skipLimiter && q.userId == u)) :=
      (List.erase_sublist op s.running).filter _
    exact le_trans hsub.length_le (h.capOK u)

theorem applyEvent_inv (opts : PinManagerOpts) (s : PinManager) (ev : PinEvent)
    (h : PMInv opts s) : PMInv opts (applyEvent opts s ev) := by
  cases ev with
  | add op =>
    show PMInv opts (s.Add opts op)
    unfold PinManager.Add
    by_cases hmem : opKey op ∈ s.duplicateGuard
    · rw [if_pos hmem]; exact h
    · rw [if_neg hmem]
      exact dispatchAll_inv opts _ (add_step_inv opts s op hmem h)
  | done op =>
    show PMInv opts (s.doneRun opts op)
    unfold PinManager.doneRun
    by_cases hmem : op ∈ s.running
    · rw [if_pos hmem]
      exact dispatchAll_inv opts _ (done_step_inv opts s op hmem h)
    · rw [if_neg hmem]; exact h

theorem newPinManager_inv (opts : PinManagerOpts) : PMInv opts NewPinManager := by
  refine ⟨?_, ?_, ?_, ?_, ?_, ?_, ?_⟩ <;>
    simp [NewPinManager, undispatchedOps, lookupKey]

theorem reachable_inv (opts : PinManagerOpts) (s : PinManager)
    (h : Reachable opts s) : PMInv opts s := by
  induction h with
  | init => exact newPinManager_inv opts
  | step ev _ ih => exact applyEvent_inv opts _ ev ih

theorem runTrace_reachable (opts : PinManagerOpts) (evs : List PinEvent) :
    Reachable opts (runTrace opts evs) := by
  suffices h : ∀ (s : PinManager), Reachable opts s →
      Reachable opts (evs.foldl (applyEvent opts) s) from
    h NewPinManager Reachable.init
  induction evs with
  | nil => intro s hs; exact hs
  | cons ev rest ih => intro s hs; exact ih _ (Reachable.step ev hs)

/-- C1: `(UserId, ContId)` uniquely identifies an outstanding operation.
While an operation with that key is tracked — equivalently, while the key is
held by the duplicate guard — a second `Add` with the same key is a no-op
that returns success (the handler is total and leaves the state unchanged,
enqueueing nothing), and over the whole outstanding interval of a claim the
ghost counter of `DoPin` invocations for that key never exceeds one. -/
theorem claim_C1 :
    (∀ (opts : PinManagerOpts) (s : PinManager) (op : PinningOperation),
        opKey op ∈ s.duplicateGuard → s.Add opts op = s)
    ∧ (∀ (opts : PinManagerOpts) (s : PinManager), Reachable opts s →
        ∀ (k : Nat × Nat) (n : Nat), (k, n) ∈ s.dispSince → n ≤ 1) := by
  constructor
  · intro opts s op hmem
    unfold PinManager.Add
    rw [if_pos hmem]
  · intro opts s hreach k n hmem
    have h := reachable_inv opts s hreach
    have hfstnodup : (s.dispSince.map Prod.fst).Nodup := by
      rw [h.dispKeys]; exact h.guardNodup
    have hlk : lookupKey s.dispSince k = some n := lookupKey_mem s.dispSince k n hmem hfstnodup
    have hkg : k ∈ s.duplicateGuard := by
      rw [← h.dispKeys]
      exact List.mem_map.mpr ⟨(k, n), hmem, rfl⟩
    rcases (h.guardMem k).mp hkg with hu | hr
    · obtain ⟨q, hq, hqk⟩ := Multiset.mem_map.mp hu
      have h0 := h.dispUndisp q hq
      rw [hqk, hlk] at h0
      have := Option.some_inj.mp h0
      omega
    · obtain ⟨q, hq, hqk⟩ := List.mem_map.mp hr
      have h1 := h.dispRunning q hq
      rw [hqk, hlk] at h1
      have := Option.some_inj.mp h1
      omega

/-- Witness for C1: a duplicate `Add` on a state holding the key, and a ghost
counter entry of a one-event trace. -/
theorem claim_C1_witness :
    (opKey ⟨1, 1, 0, "n", false⟩
        ∈ (⟨[(1, 1)], [], none, [], [], [], [((1, 1), 0)]⟩ : PinManager).duplicateGuard
      ∧ PinManager.Add ⟨[(1, 1)], [], none, [], [], [], [((1, 1), 0)]⟩ ⟨30, 1⟩
          ⟨1, 1, 0, "n", false⟩
        = ⟨[(1, 1)], [], none, [], [], [], [((1, 1), 0)]⟩)
    ∧ (((1, 1), 0) ∈ (runTrace ⟨30, 0⟩ [.add ⟨1, 1, 0, "n", false⟩]).dispSince
      ∧ (0 : Nat) ≤ 1) :=
  ⟨⟨by decide, claim_C1.1 ⟨30, 1⟩ _ _ (by decide)⟩,
   ⟨by decide,
    claim_C1.2 ⟨30, 0⟩ (runTrace ⟨30, 0⟩ [.add ⟨1, 1, 0, "n", false⟩])
      (runTrace_reachable ⟨30, 0⟩ [.add ⟨1, 1, 0, "n", false⟩]) (1, 1) 0 (by decide)⟩⟩

/-- C2: at every reachable state of every execution, for every user all of
whose running operations have `SkipLimiter = false`, the number of
concurrently running operations of that user is at most `MaxActivePerUser`. -/
theorem claim_C2 (opts : PinManagerOpts) (s : PinManager) (h : Reachable opts s)
    (u : Nat) (hall : ∀ op ∈ s.running, op.userId = u → op.skipLimiter = false) :
    userRunningCount s.running u ≤ opts.maxActivePerUser := by
  have hinv := reachable_inv opts s h
  have hfe : s.running.filter (fun q => q.userId == u)
      = s.running.filter (fun q => !q.skipLimiter && q.userId == u) := by
    refine List.filter_congr ?_
    intro q hq
    by_cases hqu : q.userId = u
    · have := hall q hq hqu
      simp [hqu, this]
    · simp [hqu]
  unfold userRunningCount
  rw [hfe]
  exact hinv.capOK u

/-- Witness for C2: a one-operation trace of a non-skip user. -/
theorem claim_C2_witness :
    userRunningCount (runTrace ⟨30, 1⟩ [.add ⟨1, 1, 0, "n", false⟩]).running 1 ≤ 30 :=
  claim_C2 ⟨30, 1⟩ _ (runTrace_reachable _ _) 1 (by decide)

/-! ## Zero-worker behaviour -/

theorem dispatchPending_workerZero (opts : PinManagerOpts) (h0 : opts.workerCount = 0) :
    ∀ (l : List PinningOperation) (s : PinManager),
    dispatchPending opts l s = { s with pendingPins := s.pendingPins ++ l } := by
  intro l
  induction l with
  | nil => intro s; simp [dispatchPending]
  | cons op rest ih =>
    intro s
    have hfree : freeSlot opts s.running = false := by simp [freeSlot, h0]
    have hred : dispatchPending opts (op :: rest) s
        = dispatchPending opts rest { s with pendingPins := s.pendingPins ++ [op] } := by
      simp [dispatchPending, hfree]
    rw [hred, ih]
    simp

theorem dispatchAll_workerZero (opts : PinManagerOpts) (h0 : opts.workerCount = 0)
    (s : PinManager) :
    dispatchAll opts s =
      match s.next, s.pinQueue with
      | some _, _ => s
      | none, [] => s
      | none, q :: rest => { s with next := some q, pinQueue := rest } := by
  obtain ⟨g, qu, nx, p, r, hi, d⟩ := s
  have hfree : freeSlot opts r = false := by simp [freeSlot, h0]
  show dispatchStream opts _ _ = _
  rw [dispatchPending_workerZero opts h0]
  cases nx with
  | some q0 => simp [dispatchStream, hfree]
  | none =>
    cases qu with
    | nil => simp [dispatchStream, hfree]
    | cons q rest => simp [dispatchStream, hfree]

theorem workerZero_quiet (opts : PinManagerOpts) (h0 : opts.workerCount = 0)
    (s : PinManager) (h : Reachable opts s) :
    s.doPinHist = [] ∧ s.running = [] := by
  induction h with
  | init => exact ⟨rfl, rfl⟩
  | @step s ev hprev ih =>
    obtain ⟨ih1, ih2⟩ := ih
    cases ev with
    | add op =>
      show (s.Add opts op).doPinHist = [] ∧ (s.Add opts op).running = []
      unfold PinManager.Add
      by_cases hmem : opKey op ∈ s.duplicateGuard
      · rw [if_pos hmem]; exact ⟨ih1, ih2⟩
      · rw [if_neg hmem, dispatchAll_workerZero opts h0]
        cases hn : s.next with
        | some q0 => simp only [hn]; exact ⟨ih1, ih2⟩
        | none =>
          cases hq : s.pinQueue ++ [op] with
          | nil => simp only [hn, hq]; exact ⟨ih1, ih2⟩
          | cons q rest => simp only [hn, hq]; exact ⟨ih1, ih2⟩
    | done op =>
      show (s.doneRun opts op).doPinHist = [] ∧ (s.doneRun opts op).running = []
      have : op ∉ s.running := by rw [ih2]; simp
      unfold PinManager.doneRun
      rw [if_neg this]
      exact ⟨ih1, ih2⟩

/-- C4, counterexample to "each Add increases the set of entries held in the
durable queue": with zero workers, the very first (non-duplicate) `Add` on a
fresh manager leaves `PinQueueSize` at `0` — the operation is popped straight
to the queue-head slot, exactly as the cited test
(`TestSend1Pin0workers`, part_001) asserts. -/
theorem claim_C4_counterexample :
    opKey ⟨1, 1, 0, "name1", false⟩ ∉ NewPinManager.duplicateGuard
    ∧ PinQueueSize (PinManager.Add NewPinManager ⟨30, 0⟩ ⟨1, 1, 0, "name1", false⟩)
        = PinQueueSize NewPinManager := by
  decide

/-- C4, amended: when `Run` is called with `workerCount = 0`, no operation is
ever dispatched (`DoPin` is invoked zero times), and every successful
non-duplicate `Add` is retained by the manager — the tracked-operation count
grows by exactly one — landing in the durable queue (so `PinQueueSize` grows
by one) except when it is immediately popped into the empty queue-head slot,
which `PinQueueSize` does not count. -/
theorem claim_C4_amended (opts : PinManagerOpts) (h0 : opts.workerCount = 0) :
    (∀ s : PinManager, Reachable opts s → s.doPinHist = [])
    ∧ (∀ (s : PinManager) (op : PinningOperation), opKey op ∉ s.duplicateGuard →
        sysCount (s.Add opts op) = sysCount s + 1)
    ∧ (∀ (s : PinManager) (op : PinningOperation), opKey op ∉ s.duplicateGuard →
        s.next.isSome = true →
        PinQueueSize (s.Add opts op) = PinQueueSize s + 1) := by
  refine ⟨?_, ?_, ?_⟩
  · intro s h
    exact (workerZero_quiet opts h0 s h).1
  · intro s op hnot
    show sysCount (PinManager.Add s opts op) = _
    unfold PinManager.Add
    rw [if_neg hnot, dispatchAll_sysCount]
    simp [sysCount, trackedOps, undispatchedOps]
    omega
  · intro s op hnot hsome
    obtain ⟨q0, hq0⟩ := Option.isSome_iff_exists.mp hsome
    show PinQueueSize (PinManager.Add s opts op) = _
    unfold PinManager.Add
    rw [if_neg hnot, dispatchAll_workerZero opts h0]
    simp [hq0, PinQueueSize]

/-- Witness for C4's amended claim, at a fresh manager and a two-add trace. -/
theorem claim_C4_witness :
    NewPinManager.doPinHist = []
    ∧ sysCount (PinManager.Add NewPinManager ⟨30, 0⟩ ⟨1, 1, 0, "name1", false⟩)
        = sysCount NewPinManager + 1
    ∧ PinQueueSize (PinManager.Add
          (runTrace ⟨30, 0⟩ [.add ⟨1, 1, 0, "name1", false⟩]) ⟨30, 0⟩
          ⟨2, 2, 0, "name2", false⟩)
        = PinQueueSize (runTrace ⟨30, 0⟩ [.add ⟨1, 1, 0, "name1", false⟩]) + 1 :=
  ⟨(claim_C4_amended ⟨30, 0⟩ rfl).1 NewPinManager Reachable.init,
   (claim_C4_amended ⟨30, 0⟩ rfl).2.1 NewPinManager ⟨1, 1, 0, "name1", false⟩ (by decide),
   (claim_C4_amended ⟨30, 0⟩ rfl).2.2 (runTrace ⟨30, 0⟩ [.add ⟨1, 1, 0, "name1", false⟩])
     ⟨2, 2, 0, "name2", false⟩ (by decide) (by decide)⟩

/-- The 20 operations with pairwise-distinct `(user, cont)` keys of
spec section 8, scenario 2 (`TestNUniqueNames` in part_001). -/
def uniqueOps20 : List PinningOperation :=
  (List.range 20).map (fun i => ⟨i, i, 0, "name" ++ toString i, false⟩)

/-- C5: after `Run(0)` and 20 `Add`s of operations with pairwise-distinct
`(user, cont)` keys, `PinQueueSize` returns 19 — the one operation popped to
the queue head is not counted, and `PinQueueSize` counts exactly the
durable-queue entries, never running or pending-map items — and `DoPin` has
been invoked zero times. -/
theorem claim_C5 :
    (∀ s : PinManager, PinQueueSize s = s.pinQueue.length)
    ∧ PinQueueSize (runTrace ⟨30, 0⟩ (uniqueOps20.map PinEvent.add)) = 19
    ∧ (runTrace ⟨30, 0⟩ (uniqueOps20.map PinEvent.add)).doPinHist.length = 0 := by
  refine ⟨fun s => rfl, ?_, ?_⟩ <;> decide

/-- C6: adding 20 operations all carrying the identical key
(`name="name"`, `user=0`, `cont=0`) with 8 workers, the duplicate guard drops
all but the first, so by the time the queue drains `DoPin` has been called
exactly once — strictly fewer than 20 times
(`TestNDuplicateNamesWorker` in part_001). -/
theorem claim_C6 :
    (drain ⟨30, 8⟩ 40 (runTrace ⟨30, 8⟩
        (List.replicate 20 (PinEvent.add ⟨0, 0, 0, "name", false⟩)))).doPinHist.length < 20
    ∧ (drain ⟨30, 8⟩ 40 (runTrace ⟨30, 8⟩
        (List.replicate 20 (PinEvent.add ⟨0, 0, 0, "name", false⟩)))).doPinHist.length = 1
    ∧ trackedOps (drain ⟨30, 8⟩ 40 (runTrace ⟨30, 8⟩
        (List.replicate 20 (PinEvent.add ⟨0, 0, 0, "name", false⟩)))) = [] := by
  refine ⟨?_, ?_, ?_⟩ <;> decide

/-! ## Draining the queue -/

theorem doneRun_histM (opts : PinManagerOpts) (s : PinManager) (op : PinningOperation) :
    List.Perm (histM (s.doneRun opts op)) (histM s) := by
  unfold PinManager.doneRun
  by_cases hmem : op ∈ s.running
  · rw [if_pos hmem]
    have h1 := dispatchAll_histM opts
      { s with running := s.running.erase op,
               duplicateGuard := s.duplicateGuard.erase (opKey op),
               dispSince := eraseKey s.dispSince (opKey op) }
    exact h1.trans (List.Perm.refl _)
  · rw [if_neg hmem]

theorem doneRun_sysCount (opts : PinManagerOpts) (s : PinManager) (op : PinningOperation)
    (hmem : op ∈ s.running) :
    sysCount (s.doneRun opts op) + 1 = sysCount s := by
  unfold PinManager.doneRun
  rw [if_pos hmem, dispatchAll_sysCount]
  have hlen : (s.running.erase op).length + 1 = s.running.length := by
    rw [List.length_erase_of_mem hmem]
    have : s.running.length ≠ 0 := by
      intro hc
      rw [List.length_eq_zero.mp hc] at hmem
      simp at hmem
    omega
  simp only [sysCount, trackedOps, undispatchedOps, List.length_append]
  omega

theorem drain_histM (opts : PinManagerOpts) :
    ∀ (fuel : Nat) (s : PinManager),
    List.Perm (histM (drain opts fuel s)) (histM s) := by
  intro fuel
  induction fuel with
  | zero => intro s; exact List.Perm.refl _
  | succ fuel ih =>
    intro s
    cases hr : (dispatchAll opts s).running with
    | nil =>
      have hred : drain opts (fuel + 1) s = dispatchAll opts s := by
        simp [drain, hr]
      rw [hred]
      exact dispatchAll_histM opts s
    | cons op rest =>
      have hred : drain opts (fuel + 1) s
          = drain opts fuel ((dispatchAll opts s).doneRun opts op) := by
        simp [drain, hr]
      rw [hred]
      exact ((ih _).trans (doneRun_histM opts _ op)).trans (dispatchAll_histM opts s)

theorem runnable_of_nil (opts : PinManagerOpts) (hmax : 1 ≤ opts.maxActivePerUser)
    (op : PinningOperation) : runnable opts [] op = true := by
  cases hskip : op.skipLimiter with
  | true => simp [runnable, hskip]
  | false =>
    simp only [runnable, hskip, Bool.false_or, decide_eq_true_eq, userRunningCount,
      List.filter_nil, List.length_nil]
    omega

theorem dispatchPending_running_nil (opts : PinManagerOpts)
    (hwc : 1 ≤ opts.workerCount) (hmax : 1 ≤ opts.maxActivePerUser)
    (l : List PinningOperation) (s : PinManager) (hsr : s.running = [])
    (hr : (dispatchPending opts l s).running = []) : l = [] := by
  cases l with
  | nil => rfl
  | cons op rest =>
    exfalso
    have hfree : freeSlot opts s.running = true := by
      simp [freeSlot, hsr]; omega
    have hrun : runnable opts s.running op = true := by
      rw [hsr]; exact runnable_of_nil opts hmax op
    have hred : dispatchPending opts (op :: rest) s
        = dispatchPending opts rest (startOp s op) := by
      simp [dispatchPending, hfree, hrun]
    rw [hred] at hr
    obtain ⟨δ, h1, _, _, _, _, _⟩ := dispatchPending_delta opts rest (startOp s op)
    rw [h1] at hr
    have : (startOp s op).running = s.running ++ [op] := rfl
    rw [this, hsr] at hr
    simp at hr

theorem dispatchStream_running_nil (opts : PinManagerOpts)
    (hwc : 1 ≤ opts.workerCount) (hmax : 1 ≤ opts.maxActivePerUser)
    (l : List PinningOperation) (s : PinManager) (hsr : s.running = [])
    (hr : (dispatchStream opts l s).running = []) : l = [] := by
  cases l with
  | nil => rfl
  | cons op rest =>
    exfalso
    have hfree : freeSlot opts s.running = true := by
      simp [freeSlot, hsr]; omega
    have hrun : runnable opts s.running op = true := by
      rw [hsr]; exact runnable_of_nil opts hmax op
    have hred : dispatchStream opts (op :: rest) s
        = dispatchStream opts rest (startOp s op) := by
      simp [dispatchStream, hfree, hrun]
    rw [hred] at hr
    obtain ⟨δ, h1, _, _, _⟩ := dispatchStream_delta opts rest (startOp s op)
    rw [h1] at hr
    have : (startOp s op).running = s.running ++ [op] := rfl
    rw [this, hsr] at hr
    simp at hr

theorem dispatchAll_progress (opts : PinManagerOpts)
    (hwc : 1 ≤ opts.workerCount) (hmax : 1 ≤ opts.maxActivePerUser)
    (s : PinManager) (hr : (dispatchAll opts s).running = []) :
    trackedOps (dispatchAll opts s) = [] := by
  obtain ⟨δ, h1, _, _, _, _⟩ := dispatchAll_delta opts s
  have hr' := hr
  rw [h1] at hr'
  obtain ⟨hsrun, hδ⟩ := List.append_eq_nil.mp hr'
  have hstep : dispatchAll opts s
      = dispatchStream opts
          ((dispatchPending opts s.pendingPins { s with pendingPins := [] }).next.toList
            ++ (dispatchPending opts s.pendingPins { s with pendingPins := [] }).pinQueue)
          (dispatchPending opts s.pendingPins { s with pendingPins := [] }) := rfl
  obtain ⟨δ2, q1, _, _, _⟩ := dispatchStream_delta opts
    ((dispatchPending opts s.pendingPins { s with pendingPins := [] }).next.toList
      ++ (dispatchPending opts s.pendingPins { s with pendingPins := [] }).pinQueue)
    (dispatchPending opts s.pendingPins { s with pendingPins := [] })
  have hz2 : (dispatchStream opts
      ((dispatchPending opts s.pendingPins { s with pendingPins := [] }).next.toList
        ++ (dispatchPending opts s.pendingPins { s with pendingPins := [] }).pinQueue)
      (dispatchPending opts s.pendingPins { s with pendingPins := [] })).running = [] := by
    rw [← hstep]; exact hr
  rw [q1] at hz2
  have hs1run : (dispatchPending opts s.pendingPins { s with pendingPins := [] }).running = [] :=
    (List.append_eq_nil.mp hz2).1
  have hpend : s.pendingPins = [] :=
    dispatchPending_running_nil opts hwc hmax s.pendingPins { s with pendingPins := [] }
      hsrun hs1run
  have hs1 : dispatchPending opts s.pendingPins { s with pendingPins := [] }
      = { s with pendingPins := [] } := by
    rw [hpend]
    rfl
  have hstream : dispatchAll opts s
      = dispatchStream opts (s.next.toList ++ s.pinQueue) { s with pendingPins := [] } := by
    rw [hstep, hs1]
  have hl2 : s.next.toList ++ s.pinQueue = [] := by
    refine dispatchStream_running_nil opts hwc hmax _ { s with pendingPins := [] } hsrun ?_
    rw [← hstream]
    exact hr
  have hfin : dispatchAll opts s
      = { s with pendingPins := [], next := none, pinQueue := [] } := by
    rw [hstream, hl2]
    rfl
  rw [hfin]
  simp [trackedOps, undispatchedOps, hsrun]

theorem drain_spec (opts : PinManagerOpts)
    (hwc : 1 ≤ opts.workerCount) (hmax : 1 ≤ opts.maxActivePerUser) :
    ∀ (fuel : Nat) (s : PinManager), sysCount s ≤ fuel →
      trackedOps (drain opts fuel s) = [] := by
  intro fuel
  induction fuel with
  | zero =>
    intro s hle
    have : trackedOps s = [] := by
      have : (trackedOps s).length = 0 := by
        have := hle
        simp only [sysCount] at this
        omega
      exact List.length_eq_zero.mp this
    exact this
  | succ fuel ih =>
    intro s hle
    cases hr : (dispatchAll opts s).running with
    | nil =>
      have hred : drain opts (fuel + 1) s = dispatchAll opts s := by
        simp [drain, hr]
      rw [hred]
      exact dispatchAll_progress opts hwc hmax s hr
    | cons op rest =>
      have hred : drain opts (fuel + 1) s
          = drain opts fuel ((dispatchAll opts s).doneRun opts op) := by
        simp [drain, hr]
      have hopmem : op ∈ (dispatchAll opts s).running := by
        rw [hr]; exact List.mem_cons_self ..
      have e1 := dispatchAll_sysCount opts s
      have e2 := doneRun_sysCount opts (dispatchAll opts s) op hopmem
      rw [hred]
      exact ih _ (by omega)

theorem drain_inv (opts : PinManagerOpts) :
    ∀ (fuel : Nat) (s : PinManager), PMInv opts s → PMInv opts (drain opts fuel s) := by
  intro fuel
  induction fuel with
  | zero => intro s h; exact h
  | succ fuel ih =>
    intro s h
    cases hr : (dispatchAll opts s).running with
    | nil =>
      have hred : drain opts (fuel + 1) s = dispatchAll opts s := by
        simp [drain, hr]
      rw [hred]
      exact dispatchAll_inv opts s h
    | cons op rest =>
      have hred : drain opts (fuel + 1) s
          = drain opts fuel ((dispatchAll opts s).doneRun opts op) := by
        simp [drain, hr]
      rw [hred]
      exact ih _ (applyEvent_inv opts (dispatchAll opts s) (.done op) (dispatchAll_inv opts s h))

/-- C3: closing a manager and constructing a fresh manager over the same
`QueueDataDir` preserves the durable queue contents: the new instance's
durable queue is exactly the operations never dispatched by the prior
instance (queue-head slot, pending map and durable queue), so with no worker
running yet `PinQueueSize` equals their count; and afterwards running at
least one worker until the queue drains executes exactly those operations —
its `DoPin` history is a permutation of them and nothing stays tracked. -/
theorem claim_C3 (s : PinManager) :
    (closeReopen s).pinQueue = undispatchedOps s
    ∧ PinQueueSize (closeReopen s) = (undispatchedOps s).length
    ∧ (∀ opts' : PinManagerOpts, 1 ≤ opts'.workerCount → 1 ≤ opts'.maxActivePerUser →
        ∀ fuel : Nat, (undispatchedOps s).length ≤ fuel →
          List.Perm (drain opts' fuel (closeReopen s)).doPinHist (undispatchedOps s)
          ∧ trackedOps (drain opts' fuel (closeReopen s)) = []) := by
  refine ⟨rfl, rfl, ?_⟩
  intro opts' hwc hmax fuel hfuel
  have hsys : sysCount (closeReopen s) ≤ fuel := by
    have he : sysCount (closeReopen s) = (undispatchedOps s).length := by
      show (undispatchedOps s ++ []).length = (undispatchedOps s).length
      rw [List.append_nil]
    omega
  have ht := drain_spec opts' hwc hmax fuel (closeReopen s) hsys
  refine ⟨?_, ht⟩
  have hp := drain_histM opts' fuel (closeReopen s)
  have hundisp : undispatchedOps (drain opts' fuel (closeReopen s)) = [] :=
    (List.append_eq_nil.mp ht).1
  have h2 : histM (drain opts' fuel (closeReopen s))
      = (drain opts' fuel (closeReopen s)).doPinHist := by
    simp [histM, hundisp]
  rw [h2] at hp
  have h3 : histM (closeReopen s) = undispatchedOps s := rfl
  rw [h3] at hp
  exact hp

/-- Witness for C3: a two-operation backlog, reopened and drained with one
worker. -/
theorem claim_C3_witness :
    (1 : Nat) ≤ 1 ∧ (1 : Nat) ≤ 30
    ∧ (undispatchedOps (runTrace ⟨30, 0⟩
        [.add ⟨1, 1, 0, "name1", false⟩, .add ⟨2, 2, 0, "name2", false⟩])).length ≤ 2
    ∧ (List.Perm
        (drain ⟨30, 1⟩ 2 (closeReopen (runTrace ⟨30, 0⟩
          [.add ⟨1, 1, 0, "name1", false⟩, .add ⟨2, 2, 0, "name2", false⟩]))).doPinHist
        (undispatchedOps (runTrace ⟨30, 0⟩
          [.add ⟨1, 1, 0, "name1", false⟩, .add ⟨2, 2, 0, "name2", false⟩]))
      ∧ trackedOps (drain ⟨30, 1⟩ 2 (closeReopen (runTrace ⟨30, 0⟩
          [.add ⟨1, 1, 0, "name1", false⟩, .add ⟨2, 2, 0, "name2", false⟩]))) = []) :=
  ⟨by decide, by decide, by decide,
   (claim_C3 (runTrace ⟨30, 0⟩
      [.add ⟨1, 1, 0, "name1", false⟩, .add ⟨2, 2, 0, "name2", false⟩])).2.2
     ⟨30, 1⟩ (by decide) (by decide) 2 (by decide)⟩

/-! ## Trace-level bounds on the `DoPin` history -/

theorem add_histM_perm (opts : PinManagerOpts) (s : PinManager) (op : PinningOperation)
    (hmem : opKey op ∉ s.duplicateGuard) :
    List.Perm (histM (s.Add opts op)) (histM s ++ [op]) := by
  unfold PinManager.Add
  rw [if_neg hmem]
  refine (dispatchAll_histM opts _).trans ?_
  show List.Perm
    (s.doPinHist ++ (s.next.toList ++ s.pendingPins ++ (s.pinQueue ++ [op])))
    (histM s ++ [op])
  rw [← Multiset.coe_eq_coe]
  simp only [histM, undispatchedOps, ← Multiset.coe_add]
  abel

theorem applyEvent_histM_le (opts : PinManagerOpts) (s : PinManager) (ev : PinEvent) :
    (histM (applyEvent opts s ev)).length ≤ (histM s).length + 1 := by
  cases ev with
  | add op =>
    by_cases hmem : opKey op ∈ s.duplicateGuard
    · show (histM (s.Add opts op)).length ≤ _
      unfold PinManager.Add
      rw [if_pos hmem]
      omega
    · have h := (add_histM_perm opts s op hmem).length_eq
      show (histM (s.Add opts op)).length ≤ _
      simp only [List.length_append, List.length_singleton] at h
      omega
  | done op =>
    have h := (doneRun_histM opts s op).length_eq
    show (histM (s.doneRun opts op)).length ≤ _
    omega

theorem runTrace_histM_le (opts : PinManagerOpts) (evs : List PinEvent) :
    (histM (runTrace opts evs)).length ≤ evs.length := by
  suffices h : ∀ s : PinManager,
      (histM (List.foldl (applyEvent opts) s evs)).length ≤ (histM s).length + evs.length by
    have h0 := h NewPinManager
    have hinit : (histM NewPinManager).length = 0 := rfl
    show (histM (List.foldl (applyEvent opts) NewPinManager evs)).length ≤ evs.length
    omega
  induction evs with
  | nil => intro s; simp
  | cons ev rest ih =>
    intro s
    have h1 := applyEvent_histM_le opts s ev
    have h2 := ih (applyEvent opts s ev)
    simp only [List.foldl_cons, List.length_cons]
    omega

/-- Every running operation has already been handed to `DoPin`. -/
def RunSubHist (s : PinManager) : Prop :=
  ∀ op ∈ s.running, op ∈ s.doPinHist

theorem dispatchAll_runSubHist (opts : PinManagerOpts) (s : PinManager)
    (h : RunSubHist s) : RunSubHist (dispatchAll opts s) := by
  obtain ⟨δ, h1, h2, _, _, _⟩ := dispatchAll_delta opts s
  intro op hop
  rw [h1] at hop
  rw [h2]
  rcases List.mem_append.mp hop with hs | hδ
  · exact List.mem_append.mpr (Or.inl (h op hs))
  · exact List.mem_append.mpr (Or.inr hδ)

theorem applyEvent_runSubHist (opts : PinManagerOpts) (s : PinManager) (ev : PinEvent)
    (h : RunSubHist s) : RunSubHist (applyEvent opts s ev) := by
  cases ev with
  | add op =>
    show RunSubHist (s.Add opts op)
    unfold PinManager.Add
    by_cases hmem : opKey op ∈ s.duplicateGuard
    · rw [if_pos hmem]; exact h
    · rw [if_neg hmem]
      exact dispatchAll_runSubHist opts _ h
  | done op =>
    show RunSubHist (s.doneRun opts op)
    unfold PinManager.doneRun
    by_cases hmem : op ∈ s.running
    · rw [if_pos hmem]
      refine dispatchAll_runSubHist opts _ ?_
      intro q hq
      exact h q ((List.erase_sublist op s.running).subset hq)
    · rw [if_neg hmem]; exact h

theorem reachable_runSubHist (opts : PinManagerOpts) (s : PinManager)
    (h : Reachable opts s) : RunSubHist s := by
  induction h with
  | init => intro op hop; simp [NewPinManager] at hop
  | step ev _ ih => exact applyEvent_runSubHist opts _ ev ih

theorem reachable_running_le_hist (opts : PinManagerOpts) (s : PinManager)
    (h : Reachable opts s) : s.running.length ≤ s.doPinHist.length := by
  have hgen : ∀ t : PinManager, t.running.length ≤ t.doPinHist.length →
      (dispatchAll opts t).running.length ≤ (dispatchAll opts t).doPinHist.length := by
    intro t hle
    obtain ⟨δ, h1, h2, _, _, _⟩ := dispatchAll_delta opts t
    rw [h1, h2]
    simp only [List.length_append]
    omega
  induction h with
  | init => exact le_refl 0
  | @step s ev hprev ih =>
    cases ev with
    | add op =>
      show (s.Add opts op).running.length ≤ (s.Add opts op).doPinHist.length
      unfold PinManager.Add
      by_cases hmem : opKey op ∈ s.duplicateGuard
      · rw [if_pos hmem]; exact ih
      · rw [if_neg hmem]
        exact hgen _ ih
    | done op =>
      show (s.doneRun opts op).running.length ≤ (s.doneRun opts op).doPinHist.length
      unfold PinManager.doneRun
      by_cases hmem : op ∈ s.running
      · rw [if_pos hmem]
        refine hgen _ ?_
        exact le_trans (List.erase_sublist op s.running).length_le ih
      · rw [if_neg hmem]; exact ih

theorem sysCount_runTrace_le (opts : PinManagerOpts) (evs : List PinEvent) :
    sysCount (runTrace opts evs) ≤ 2 * evs.length := by
  have h1 := runTrace_histM_le opts evs
  have h2 := reachable_running_le_hist opts _ (runTrace_reachable opts evs)
  simp only [histM, List.length_append] at h1
  simp only [sysCount, trackedOps, List.length_append]
  omega

/-- A key has been seen and not forgotten: it is either still claimed by the
duplicate guard or already appears in the `DoPin` history. -/
def KeySeen (k : Nat × Nat) (s : PinManager) : Prop :=
  k ∈ s.duplicateGuard ∨ k ∈ s.doPinHist.map opKey

theorem dispatchAll_keySeen (opts : PinManagerOpts) (s : PinManager) (k : Nat × Nat)
    (h : KeySeen k s) : KeySeen k (dispatchAll opts s) := by
  obtain ⟨δ, _, h2, _, h4, _⟩ := dispatchAll_delta opts s
  rcases h with hg | hh
  · exact Or.inl (h4 ▸ hg)
  · refine Or.inr ?_
    rw [h2, List.map_append]
    exact List.mem_append.mpr (Or.inl hh)

theorem applyEvent_keySeen (opts : PinManagerOpts) (s : PinManager) (ev : PinEvent)
    (k : Nat × Nat) (hrh : RunSubHist s) (h : KeySeen k s) :
    KeySeen k (applyEvent opts s ev) := by
  cases ev with
  | add op =>
    show KeySeen k (s.Add opts op)
    unfold PinManager.Add
    by_cases hmem : opKey op ∈ s.duplicateGuard
    · rw [if_pos hmem]; exact h
    · rw [if_neg hmem]
      refine dispatchAll_keySeen opts _ k ?_
      rcases h with hg | hh
      · exact Or.inl (List.mem_cons_of_mem _ hg)
      · exact Or.inr hh
  | done op =>
    show KeySeen k (s.doneRun opts op)
    unfold PinManager.doneRun
    by_cases hmem : op ∈ s.running
    · rw [if_pos hmem]
      refine dispatchAll_keySeen opts _ k ?_
      rcases h with hg | hh
      · by_cases hk : k = opKey op
        · refine Or.inr ?_
          subst hk
          exact List.mem_map.mpr ⟨op, hrh op hmem, rfl⟩
        · exact Or.inl ((List.mem_erase_of_ne hk).mpr hg)
      · exact Or.inr hh
    · rw [if_neg hmem]; exact h

theorem added_keySeen (opts : PinManagerOpts) (evs : List PinEvent)
    (op : PinningOperation) (hmem : PinEvent.add op ∈ evs) :
    KeySeen (opKey op) (runTrace opts evs) := by
  induction evs using List.reverseRecOn with
  | nil => simp at hmem
  | append_singleton l ev ihl =>
    have hrt : runTrace opts (l ++ [ev]) = applyEvent opts (runTrace opts l) ev := by
      simp [runTrace, List.foldl_append]
    rw [hrt]
    rcases List.mem_append.mp hmem with hl | hev
    · exact applyEvent_keySeen opts _ ev _
        (reachable_runSubHist opts _ (runTrace_reachable opts l)) (ihl hl)
    · have hevadd : ev = .add op := (List.mem_singleton.mp hev).symm
      subst hevadd
      show KeySeen (opKey op) ((runTrace opts l).Add opts op)
      unfold PinManager.Add
      by_cases hdup : opKey op ∈ (runTrace opts l).duplicateGuard
      · rw [if_pos hdup]; exact Or.inl hdup
      · rw [if_neg hdup]
        refine Or.inl ?_
        rw [dispatchAll_guard]
        exact List.mem_cons_self ..

theorem drain_keySeen (opts : PinManagerOpts) :
    ∀ (fuel : Nat) (s : PinManager) (k : Nat × Nat), RunSubHist s → KeySeen k s →
    KeySeen k (drain opts fuel s) := by
  intro fuel
  induction fuel with
  | zero => intro s k _ h; exact h
  | succ fuel ih =>
    intro s k hrh h
    cases hr : (dispatchAll opts s).running with
    | nil =>
      have hred : drain opts (fuel + 1) s = dispatchAll opts s := by
        simp [drain, hr]
      rw [hred]
      exact dispatchAll_keySeen opts s k h
    | cons op rest =>
      have hred : drain opts (fuel + 1) s
          = drain opts fuel ((dispatchAll opts s).doneRun opts op) := by
        simp [drain, hr]
      rw [hred]
      refine ih _ k ?_ ?_
      · exact applyEvent_runSubHist opts _ (.done op) (dispatchAll_runSubHist opts s hrh)
      · exact applyEvent_keySeen opts _ (.done op) k (dispatchAll_runSubHist opts s hrh)
          (dispatchAll_keySeen opts s k h)

theorem guard_nil_of_drained (opts : PinManagerOpts) (s : PinManager)
    (hinv : PMInv opts s) (ht : trackedOps s = []) : s.duplicateGuard = [] := by
  obtain ⟨hu, hrn⟩ := List.append_eq_nil.mp ht
  refine List.eq_nil_iff_forall_not_mem.mpr fun k hk => ?_
  rcases (hinv.guardMem k).mp hk with hcase | hcase
  · rw [hu] at hcase; simp at hcase
  · rw [hrn] at hcase; simp at hcase

/-! ## The cap-flood scenario (C7) -/

/-- One operation of the flood scenario: name `"name" ++ i`, user `j`,
content `i*20+j`, exactly as built by
`TestNDuplicateNamesNDuplicateUsersNTimeWork` in part_001. -/
def floodOp (i j : Nat) : PinningOperation :=
  ⟨i * 20 + j, j, 0, "name" ++ toString i, false⟩

/-- The 20×20×20 = 8000 operations of the flood: every `(user, cont)`
combination of 20 users × 20 contents, added 20 times over. -/
def floodOps : List PinningOperation :=
  (List.range 20).flatMap (fun _ =>
    (List.range 20).flatMap (fun j => (List.range 20).map (fun i => floodOp i j)))

/-- The flood as a trace of `Add` events. -/
def floodTrace : List PinEvent := floodOps.map PinEvent.add

/-- The 400 pairwise-distinct keys occurring in the flood. -/
def floodKeys : List (Nat × Nat) :=
  (List.range 20).flatMap (fun j => (List.range 20).map (fun i => (j, i * 20 + j)))

/-- The manager after the flood has been added (MaxActivePerUser 30, one
worker) and the queue drained. -/
def floodFinal : PinManager := drain ⟨30, 1⟩ 16000 (runTrace ⟨30, 1⟩ floodTrace)

theorem floodKeys_length : floodKeys.length = 400 := by
  simp [floodKeys, List.length_flatMap, Function.comp_def]

theorem floodTrace_length : floodTrace.length = 8000 := by
  simp [floodTrace, floodOps, List.length_flatMap, Function.comp_def]

theorem floodKeys_nodup : floodKeys.Nodup := by
  rw [floodKeys, List.nodup_flatMap]
  constructor
  · intro j hj
    refine List.Nodup.map ?_ (List.nodup_range 20)
    intro a b hab
    have h2 := congrArg Prod.snd hab
    simp only at h2
    omega
  · refine List.Pairwise.imp ?_ (List.pairwise_lt_range 20)
    intro a b hab x hxa hxb
    obtain ⟨i1, hm1, h1⟩ := List.mem_map.mp hxa
    obtain ⟨i2, hm2, h2⟩ := List.mem_map.mp hxb
    have ha : x.1 = a := by rw [← h1]
    have hb : x.1 = b := by rw [← h2]
    omega

theorem floodKeys_mem_trace (k : Nat × Nat) (hk : k ∈ floodKeys) :
    ∃ op : PinningOperation, opKey op = k ∧ PinEvent.add op ∈ floodTrace := by
  rw [floodKeys] at hk
  obtain ⟨j, hj, hkin⟩ := List.mem_flatMap.mp hk
  obtain ⟨i, hi, hik⟩ := List.mem_map.mp hkin
  refine ⟨floodOp i j, ?_, ?_⟩
  · rw [← hik]; rfl
  · rw [floodTrace]
    refine List.mem_map.mpr ⟨floodOp i j, ?_, rfl⟩
    rw [floodOps]
    refine List.mem_flatMap.mpr ⟨0, by simp, ?_⟩
    exact List.mem_flatMap.mpr ⟨j, hj, List.mem_map.mpr ⟨i, hi, rfl⟩⟩

theorem floodFinal_drained : trackedOps floodFinal = [] := by
  refine drain_spec ⟨30, 1⟩ (le_refl 1) (by decide) 16000 (runTrace ⟨30, 1⟩ floodTrace) ?_
  have h1 := sysCount_runTrace_le ⟨30, 1⟩ floodTrace
  have h2 := floodTrace_length
  omega

theorem floodFinal_guard : floodFinal.duplicateGuard = [] :=
  guard_nil_of_drained ⟨30, 1⟩ floodFinal
    (drain_inv ⟨30, 1⟩ 16000 _ (reachable_inv ⟨30, 1⟩ _ (runTrace_reachable ⟨30, 1⟩ floodTrace)))
    floodFinal_drained

theorem floodKeys_in_hist : ∀ k ∈ floodKeys, k ∈ floodFinal.doPinHist.map opKey := by
  intro k hk
  obtain ⟨op, hop, htr⟩ := floodKeys_mem_trace k hk
  have h1 : KeySeen (opKey op) (runTrace ⟨30, 1⟩ floodTrace) :=
    added_keySeen ⟨30, 1⟩ floodTrace op htr
  have h2 : KeySeen (opKey op) floodFinal :=
    drain_keySeen ⟨30, 1⟩ 16000 _ _
      (reachable_runSubHist ⟨30, 1⟩ _ (runTrace_reachable ⟨30, 1⟩ floodTrace)) h1
  rw [hop] at h2
  rcases h2 with hg | hh
  · rw [floodFinal_guard] at hg
    simp at hg
  · exact hh

/-- C7: with `MaxActivePerUser = 30` and one worker, flooding
`N*N*N = 8000` `Add`s spread over `N = 20` users with `N = 20` distinct
content ids each — each `(user, cont)` combination added `N` times — the
total `DoPin` call count by the time the queue drains lies between
`N*N = 400` and `N*N*N = 8000`, the slack between the bounds being the
duplicates: each of the 400 distinct keys is executed at least once, and no
more `DoPin` calls happen than `Add` events. -/
theorem claim_C7 :
    400 ≤ floodFinal.doPinHist.length
    ∧ floodFinal.doPinHist.length ≤ 8000
    ∧ trackedOps floodFinal = [] := by
  have hfd : floodFinal = drain ⟨30, 1⟩ 16000 (runTrace ⟨30, 1⟩ floodTrace) := rfl
  refine ⟨?_, ?_, floodFinal_drained⟩
  · have hle := (List.subperm_of_subset floodKeys_nodup floodKeys_in_hist).length_le
    rw [floodKeys_length, List.length_map] at hle
    exact hle
  · have h1 := (drain_histM ⟨30, 1⟩ 16000 (runTrace ⟨30, 1⟩ floodTrace)).length_eq
    have h2 := runTrace_histM_le ⟨30, 1⟩ floodTrace
    have h3 : floodFinal.doPinHist.length ≤ (histM floodFinal).length := by
      simp only [histM, List.length_append]
      omega
    have h4 := floodTrace_length
    rw [← hfd] at h1
    omega
